import Mathlib

/-!
Verification of the app-review fetcher/analyzer.

The development shallowly embeds the two Python modules
`app_reviews_fetcher.py` (class `AppReviewsFetcher`) and
`review_analyzer.py` (class `ReviewAnalyzer`) and proves the spec's
properties about them.

Modelling conventions:
* Python dict review records become the structure `Review`.  The
  `rating` field holds the integer value produced by `int(review['rating'])`
  (every analysis routine converts the stored decimal string this way);
  the `updated` field holds the result of the library calls
  `datetime.fromisoformat` / `strftime('%Y-%m')`, i.e. the review's
  calendar month encoded as `100 * year + month` when the timestamp
  parses, and `none` when parsing raises (the code's bare `except`).
  For zero-padded `YYYY-MM` strings, Python's lexicographic string sort
  coincides with `≤` on this numeric code.
* Python text is restricted to the ASCII fragment, where `str.lower`
  agrees with `Char.toLower`; `len`/slicing count code points exactly as
  `List Char` length/`take` do.
* `statistics.mean`/`median` return floats; they are modelled over `ℚ`.
  `statistics.mean` raises `StatisticsError` on an empty list (the
  spec's `EmptyInputError`); the embedding returns `Except` instead.
* Network effects are oracles: one fetch attempt is a value of
  `AttemptOutcome`, a whole feed is a partial map from URL to page.
-/

/-- The ordering ("sort order") a review record came from; the merge in
`ReviewAnalyzer.get_all_reviews` tags each retained review with the first
ordering that supplied it. -/
inductive Source where
  | most_helpful : Source
  | most_recent : Source
deriving DecidableEq, Repr

/-- One review record, as produced by `AppReviewsFetcher.extract_reviews`
and consumed by the analyzer.  `rating` is the parsed integer rating,
`updated` the parsed month key (see the module docstring). -/
structure Review where
  id : String
  rating : ℤ
  title : String := ""
  content : String := ""
  updated : Option ℕ := none
  author : String := ""
  version : String := ""
  vote_sum : String := "0"
  vote_count : String := "0"
deriving DecidableEq, Repr

/-- A review together with the `source` tag that
`ReviewAnalyzer.get_all_reviews` writes into the record
(`review['source'] = source`). -/
structure SourcedReview where
  review : Review
  source : Source
deriving DecidableEq, Repr

/-! ## `ReviewAnalyzer.get_all_reviews` (the dedup merge) -/

/-- The two nested loops of `get_all_reviews` flattened into one pass:
ordering A's reviews (tagged `most_helpful`) followed by ordering B's
(tagged `most_recent`), exactly the iteration order of
`for source in ['most_helpful', 'most_recent']`. -/
def taggedInput (helpful recent : List Review) : List (Source × Review) :=
  helpful.map (fun r => (Source.most_helpful, r)) ++
    recent.map (fun r => (Source.most_recent, r))

/-- The body of `get_all_reviews`: walk the tagged records keeping a
`seen_ids` set; a record whose id is unseen is appended (with its source
tag) and its id added to the set, otherwise it is skipped entirely. -/
def mergeReviews (seen : List String) : List (Source × Review) → List SourcedReview
  | [] => []
  | (src, r) :: rest =>
      if r.id ∈ seen then
        mergeReviews seen rest
      else
        ⟨r, src⟩ :: mergeReviews (r.id :: seen) rest

/-- `ReviewAnalyzer.get_all_reviews`, starting from an empty `seen_ids`. -/
def get_all_reviews (helpful recent : List Review) : List SourcedReview :=
  mergeReviews [] (taggedInput helpful recent)

/-! ## `AppReviewsFetcher.fetch_url` (bounded retry with backoff) -/

/-- Outcome of a single `urllib.request.urlopen` + `json.loads` attempt:
success with parsed data, a transport failure (`HTTPError`/`URLError`),
or a malformed payload (`JSONDecodeError`). -/
inductive AttemptOutcome (α : Type) where
  | success (data : α) : AttemptOutcome α
  | transport : AttemptOutcome α
  | malformed : AttemptOutcome α

/-- `AppReviewsFetcher.MAX_RETRIES`. -/
def MAX_RETRIES : ℕ := 3

/-- Result of `fetch_url`, instrumented with the observable effects the
spec talks about: the returned value, the number of attempts made
(`urlopen` calls), and the list of backoff sleeps performed
(`time.sleep(2 ** attempt)`), in order. -/
structure FetchTrace (α : Type) where
  result : Option α
  attempts : ℕ
  sleeps : List ℕ
deriving DecidableEq, Repr

/-- The `for attempt in range(MAX_RETRIES)` loop of `fetch_url`.  The
`oracle` gives the outcome of the attempt with the given index.  On
success the data is returned; on a malformed payload the function
returns `None` at once; on a transport failure it sleeps `2 ^ attempt`
and continues when `attempt < MAX_RETRIES - 1`, otherwise returns
`None`. -/
def fetchUrlLoop {α : Type} (oracle : ℕ → AttemptOutcome α) :
    List ℕ → FetchTrace α
  | [] => ⟨none, 0, []⟩
  | attempt :: rest =>
      match oracle attempt with
      | .success d => ⟨some d, 1, []⟩
      | .malformed => ⟨none, 1, []⟩
      | .transport =>
          if attempt < MAX_RETRIES - 1 then
            let t := fetchUrlLoop oracle rest
            ⟨t.result, t.attempts + 1, 2 ^ attempt :: t.sleeps⟩
          else
            ⟨none, 1, []⟩

/-- `AppReviewsFetcher.fetch_url` over the attempt oracle. -/
def fetch_url {α : Type} (oracle : ℕ → AttemptOutcome α) : FetchTrace α :=
  fetchUrlLoop oracle (List.range MAX_RETRIES)

/-! ## `AppReviewsFetcher.fetch_all_reviews` (the pagination walk) -/

/-- One fetched feed page: the review entries extracted by
`extract_reviews` and the next-page cursor as returned by
`get_next_page_url` (already rewritten from the XML to the JSON variant;
`none` when the link collection has no "next" relation). -/
structure Page where
  entries : List Review
  next : Option String
deriving Repr

/-- State of the `while url:` loop in `fetch_all_reviews`: current
cursor, `page_num`, and the accumulated `all_reviews`. -/
structure WalkState where
  url : String
  pageNum : ℕ
  acc : List Review
deriving Repr

/-- Result of one loop iteration: either the loop continues with a new
state, or it stops with the accumulated reviews and final `page_num`
(`metadata['total_pages']`). -/
inductive StepResult where
  | next (s : WalkState) : StepResult
  | stop (acc : List Review) (pages : ℕ) : StepResult
deriving Repr

/-- One iteration of the `while url:` loop:  fetch the cursor (one
`fetch_url` call, here a lookup in the `feed` map, `none` modelling a
terminal fetch failure); on failure `break`; otherwise append the page's
entries, extract the next cursor, and continue only when it is present
and different from the cursor just fetched (`if next_url and next_url != url`). -/
def walkStep (feed : String → Option Page) (s : WalkState) : StepResult :=
  match feed s.url with
  | none => .stop s.acc s.pageNum
  | some page =>
      let acc := s.acc ++ page.entries
      match page.next with
      | some nextUrl =>
          if nextUrl ≠ s.url then
            .next ⟨nextUrl, s.pageNum + 1, acc⟩
          else
            .stop acc s.pageNum
      | none => .stop acc s.pageNum

/-- The `while url:` loop, with explicit fuel (the loop in the source
has no structural bound; `none` models non-termination within the given
fuel). -/
def walkAux (feed : String → Option Page) : ℕ → WalkState → Option (List Review × ℕ)
  | 0, _ => none
  | fuel + 1, s =>
      match walkStep feed s with
      | .stop acc pages => some (acc, pages)
      | .next s' => walkAux feed fuel s'

/-- `AppReviewsFetcher.fetch_all_reviews`: start at the first page URL
with `page_num = 1` and no accumulated reviews. -/
def fetch_all_reviews (feed : String → Option Page) (fuel : ℕ) (startUrl : String) :
    Option (List Review × ℕ) :=
  walkAux feed fuel ⟨startUrl, 1, []⟩

/-- A one-page feed whose "next" link points back at the page itself:
the concrete scenario of the spec's cycle-guard property. -/
def selfLoopFeed (u : String) (entries : List Review) : String → Option Page :=
  fun url => if url = u then some ⟨entries, some u⟩ else none

/-! ## Numeric helpers (`statistics.mean`, `statistics.median`, `round`) -/

/-- `statistics.mean` over exact rationals (`[].sum / 0 = 0` is never
reached: every caller either guards emptiness or errors first). -/
def listMean (l : List ℚ) : ℚ := l.sum / (l.length : ℚ)

/-- Python's banker's rounding to the nearest integer: ties go to the
even neighbour. -/
def roundHalfEven (x : ℚ) : ℤ :=
  let f := ⌊x⌋
  if x - f < 1 / 2 then f
  else if 1 / 2 < x - f then f + 1
  else if f % 2 = 0 then f else f + 1

/-- Python's `round(x, 2)` (idealized over exact rationals; the source
applies it to floats). -/
def round2 (x : ℚ) : ℚ := (roundHalfEven (x * 100) : ℚ) / 100

/-- `statistics.median`: middle element of the sorted data for odd
length, mean of the two middle elements for even length. -/
def medianQ (l : List ℚ) : ℚ :=
  let s := List.insertionSort (fun a b : ℚ => a ≤ b) l
  let n := s.length
  if n % 2 = 1 then s.getD (n / 2) 0
  else (s.getD (n / 2 - 1) 0 + s.getD (n / 2) 0) / 2

/-- The failures the analysis routines can surface.  `emptyInput` models
the `statistics.StatisticsError` that `statistics.mean` raises on an
empty sequence — the spec's `EmptyInputError`; the analyzer never
catches it, so it propagates to the caller. -/
inductive AnalysisError where
  | emptyInput : AnalysisError
deriving DecidableEq, Repr

/-! ## `ReviewAnalyzer.analyze_ratings_distribution` -/

/-- One step of `collections.Counter`: bump the count of `x`, appending
a fresh key at the end on first sight (Counter preserves first-encounter
order). -/
def bumpCount (x : ℤ) : List (ℤ × ℕ) → List (ℤ × ℕ)
  | [] => [(x, 1)]
  | (k, n) :: rest =>
      if k = x then (k, n + 1) :: rest else (k, n) :: bumpCount x rest

/-- `collections.Counter(ratings)` as an association list. -/
def counter (l : List ℤ) : List (ℤ × ℕ) :=
  l.foldl (fun acc x => bumpCount x acc) []

/-- The dict returned by `analyze_ratings_distribution`. -/
structure RatingStats where
  distribution : List (String × ℕ)
  total_reviews : ℕ
  average_rating : ℚ
  median_rating : ℚ
  low_ratings_count : ℕ
  high_ratings_count : ℕ
deriving DecidableEq, Repr

/-- The dict `analyze_ratings_distribution` builds (meaningful for a
non-empty input; on the empty input the source raises before returning
it). -/
def ratingStatsOf (reviews : List Review) : RatingStats :=
  let ratings := reviews.map Review.rating
  { distribution := (counter ratings).map (fun p => (toString p.1, p.2)),
    total_reviews := ratings.length,
    average_rating := round2 (listMean (ratings.map (fun z => (z : ℚ)))),
    median_rating := medianQ (ratings.map (fun z => (z : ℚ))),
    low_ratings_count := ratings.countP (fun r => decide (r ≤ 3)),
    high_ratings_count := ratings.countP (fun r => decide (4 ≤ r)) }

/-- `ReviewAnalyzer.analyze_ratings_distribution`.  The source computes
`Counter` first and then raises from `statistics.mean(ratings)` when
`ratings` is empty; the guard placement here is observably the same. -/
def analyze_ratings_distribution (reviews : List Review) :
    Except AnalysisError RatingStats :=
  if (reviews.map Review.rating).isEmpty then .error .emptyInput
  else .ok (ratingStatsOf reviews)

/-! ## `ReviewAnalyzer.analyze_temporal_trends` -/

/-- The `(date, rating)` pairs of the reviews whose timestamp parses
(`dated_reviews`); a review whose `updated` fails to parse is skipped by
the bare `except: continue`.  Only the month key of the date is kept:
the source sorts `dated_reviews` by full date before bucketing, which
only permutes ratings inside a month bucket and the first-encounter
order of month keys, both unobservable after the later per-key sort. -/
def datedReviews (reviews : List Review) : List (ℕ × ℤ) :=
  reviews.filterMap (fun r => r.updated.map (fun m => (m, r.rating)))

/-- One step of the `monthly_stats` defaultdict update: append the
rating to the month's bucket, creating the bucket at the end on first
sight (dicts preserve insertion order).  The source also tracks a
`count` field; it always equals the bucket's length. -/
def addRating (m : ℕ) (rating : ℤ) : List (ℕ × List ℤ) → List (ℕ × List ℤ)
  | [] => [(m, [rating])]
  | (k, rs) :: rest =>
      if k = m then (k, rs ++ [rating]) :: rest
      else (k, rs) :: addRating m rating rest

/-- The `monthly_stats` grouping loop. -/
def monthlyStats (dated : List (ℕ × ℤ)) : List (ℕ × List ℤ) :=
  dated.foldl (fun acc p => addRating p.1 p.2 acc) []

/-- Per-month entry of `monthly_trends`: review count and rounded mean
rating. -/
structure MonthStat where
  count : ℕ
  avg_rating : ℚ
deriving DecidableEq, Repr

/-- The `monthly_trends` dict: per month, count and
`round(statistics.mean(ratings), 2)`. -/
def monthly_trends (reviews : List Review) : List (ℕ × MonthStat) :=
  (monthlyStats (datedReviews reviews)).map
    (fun p => (p.1, ⟨p.2.length, round2 (listMean (p.2.map (fun z => (z : ℚ))))⟩))

/-- Comparison on month entries by month key, the order used by
`sorted(monthly_trends.items())` (keys are distinct, so the value part
never decides a comparison). -/
def keyLE (a b : ℕ × MonthStat) : Prop := a.1 ≤ b.1

instance : DecidableRel keyLE := fun a b => Nat.decLe a.1 b.1

/-- `sorted(monthly_trends.items())`.  The algorithm differs from
CPython's timsort, but on distinct keys the sorted permutation is
unique, so the results agree. -/
def sortedTrends (reviews : List Review) : List (ℕ × MonthStat) :=
  List.insertionSort keyLE (monthly_trends reviews)

/-- `sorted(monthly_trends.keys())`: equal to the key projection of the
sorted items, since both are `≤`-sorted permutations of the same
(distinct) keys. -/
def sortedMonthKeys (reviews : List Review) : List ℕ :=
  (sortedTrends reviews).map Prod.fst

/-- `sorted(monthly_trends.keys())[-3:]` (`recent_months`). -/
def recent_months (reviews : List Review) : List ℕ :=
  let k := sortedMonthKeys reviews
  k.drop (k.length - 3)

/-- `sorted(monthly_trends.keys())[-6:-3]` (`previous_months`); with
truncated subtraction, `take (n - 3)` then `drop (n - 6)` reproduces
Python's negative-index slice for every length `n`. -/
def previous_months (reviews : List Review) : List ℕ :=
  let k := sortedMonthKeys reviews
  (k.take (k.length - 3)).drop (k.length - 6)

/-- `[monthly_trends[m]['avg_rating'] for m in months if m in monthly_trends]`. -/
def monthAvgs (reviews : List Review) (months : List ℕ) : List ℚ :=
  months.filterMap (fun m => (List.lookup m (monthly_trends reviews)).map MonthStat.avg_rating)

/-- `recent_avg` (meaningful only when some month exists; the caller
errors otherwise, as `statistics.mean` raises on the empty list). -/
def recent_avg (reviews : List Review) : ℚ :=
  listMean (monthAvgs reviews (recent_months reviews))

/-- `previous_avg = statistics.mean(...) if previous_months else recent_avg`. -/
def previous_avg (reviews : List Review) : ℚ :=
  if (previous_months reviews).isEmpty then recent_avg reviews
  else listMean (monthAvgs reviews (previous_months reviews))

/-- The `recent_trend` classification values. -/
inductive Trend where
  | improving : Trend
  | declining : Trend
  | stable : Trend
deriving DecidableEq, Repr

/-- The dict returned by `analyze_temporal_trends`. -/
structure TrendStats where
  monthly_trends : List (ℕ × MonthStat)
  recent_trend : Trend
  recent_avg_rating : ℚ
deriving DecidableEq, Repr

/-- The dict `analyze_temporal_trends` returns (meaningful when some
month exists): the monthly series
`dict(sorted(monthly_trends.items())[-12:])`, the strict three-way
`recent_trend` comparison of the window averages, and the rounded
recent average. -/
def trendStatsOf (reviews : List Review) : TrendStats :=
  { monthly_trends :=
      (sortedTrends reviews).drop ((sortedTrends reviews).length - 12),
    recent_trend :=
      if previous_avg reviews < recent_avg reviews then .improving
      else if recent_avg reviews < previous_avg reviews then .declining
      else .stable,
    recent_avg_rating := round2 (recent_avg reviews) }

/-- `ReviewAnalyzer.analyze_temporal_trends`.  When no review has a
parseable timestamp, `recent_months` is empty and `statistics.mean([])`
raises — modelled by the error branch; otherwise the stats dict is
returned. -/
def analyze_temporal_trends (reviews : List Review) :
    Except AnalysisError TrendStats :=
  if (monthAvgs reviews (recent_months reviews)).isEmpty then
    .error .emptyInput
  else .ok (trendStatsOf reviews)

/-! ## Text matching helpers -/

/-- ASCII lower-casing of a string (`str.lower` restricted to ASCII,
where it agrees with `Char.toLower`). -/
def lowerStr (s : String) : String := String.mk (s.toList.map Char.toLower)

/-- Python's substring test `needle in hay` over code-point lists. -/
def containsSub (needle : List Char) : List Char → Bool
  | [] => needle.isEmpty
  | c :: rest => needle.isPrefixOf (c :: rest) || containsSub needle rest

/-- `needle in hay` on strings. -/
def strContains (hay needle : String) : Bool := containsSub needle.toList hay.toList

/-- `(review['title'] + ' ' + review['content']).lower()`. -/
def reviewText (r : Review) : String := lowerStr (r.title ++ " " ++ r.content)

/-- `content[:limit] + '...' if len(content) > limit else content`. -/
def excerptOf (limit : ℕ) (content : String) : String :=
  if limit < content.length then String.mk (content.toList.take limit) ++ "..."
  else content

/-! ## `ReviewAnalyzer.extract_keywords_and_issues`: issue categories -/

/-- The fixed `issue_categories` rule table. -/
def issue_categories : List (String × List String) :=
  [("crashes_bugs", ["crash", "bug", "freeze", "frozen", "stuck", "error", "broken", "fix", "glitch"]),
   ("performance", ["slow", "lag", "loading", "performance", "speed", "responsive"]),
   ("ui_ux", ["interface", "design", "confusing", "intuitive", "navigation", "layout", "ui", "ux", "user experience"]),
   ("features", ["feature", "missing", "need", "want", "wish", "add", "implement", "functionality"]),
   ("sync_data", ["sync", "data", "lost", "backup", "restore", "cloud", "save"]),
   ("pricing", ["expensive", "price", "cost", "subscription", "free", "pay", "premium"]),
   ("search_discovery", ["search", "find", "discover", "filter", "sort"]),
   ("social", ["friends", "social", "share", "community", "follow", "profile"])]

/-- `any(keyword in content for keyword in keywords)`. -/
def matchesCategory (keywords : List String) (text : String) : Bool :=
  keywords.any (fun k => strContains text k)

/-- One stored example: the review's rating and a 200-character excerpt. -/
structure IssueExample where
  rating : ℤ
  excerpt : String
deriving DecidableEq, Repr

/-- Per-category accumulator of the `category_counts` defaultdict. -/
structure CatAcc where
  count : ℕ
  examples : List IssueExample
deriving DecidableEq, Repr

/-- Handling of one matched category for one review: bump the count and
append an example while fewer than 3 are stored. -/
def bumpCat (r : Review) (a : CatAcc) : CatAcc :=
  { count := a.count + 1,
    examples :=
      if a.examples.length < 3 then
        a.examples ++ [⟨r.rating, excerptOf 200 r.content⟩]
      else a.examples }

/-- The inner `for category, keywords in issue_categories.items()` loop
for one review.  The `category_counts` defaultdict is modelled by its
lookup function. -/
def updateCats (r : Review) :
    List (String × List String) → (String → CatAcc) → (String → CatAcc)
  | [], acc => acc
  | (name, kws) :: rest, acc =>
      updateCats r rest
        (if matchesCategory kws (reviewText r) then
          Function.update acc name (bumpCat r (acc name))
         else acc)

/-- The outer `for review in low_rated_reviews` loop. -/
def issueAccAux : List Review → (String → CatAcc) → (String → CatAcc)
  | [], acc => acc
  | r :: rest, acc => issueAccAux rest (updateCats r issue_categories acc)

/-- The `category_counts` accumulator built by
`extract_keywords_and_issues` over the low-rated reviews
(`int(r['rating']) <= 3`). -/
def issue_category_counts (reviews : List Review) : String → CatAcc :=
  issueAccAux (reviews.filter (fun r => decide (r.rating ≤ 3))) (fun _ => ⟨0, []⟩)

/-! ## `ReviewAnalyzer.extract_keywords_and_issues`: feature requests -/

/-- The `feature_patterns` regex list.  Each regex is an alternation of
literal words, so `re.search(pattern, text)` holds exactly when one of
the listed literal expansions occurs as a substring of `text`; the
entries below enumerate those expansions in the source's order. -/
def feature_patterns : List (List String) :=
  [["would be nice if", "would be great if", "would be good if"],
   ["wish it", "wish this", "wish the app"],
   ["should add", "should have", "should include"],
   ["need to", "need a", "need an", "needs to", "needs a", "needs an"],
   ["missing"],
   ["please add"],
   ["feature request"]]

/-- `re.search(pattern, content)` for one (alternation-of-literals)
pattern. -/
def matchesPat (text : String) (pat : List String) : Bool :=
  pat.any (fun p => strContains text p)

/-- The `for pattern in feature_patterns` loop with its `break`: stop at
the first pattern that matches. -/
def firstPatternMatch (text : String) : List (List String) → Bool
  | [] => false
  | p :: rest => if matchesPat text p then true else firstPatternMatch text rest

/-- The `feature_requests` list: one entry (rating plus 300-character
excerpt) per review some pattern matches; the `break` means each review
contributes at most one entry. -/
def feature_requests : List Review → List IssueExample
  | [] => []
  | r :: rest =>
      if firstPatternMatch (reviewText r) feature_patterns then
        ⟨r.rating, excerptOf 300 r.content⟩ :: feature_requests rest
      else feature_requests rest

/-- `'feature_requests_count': len(feature_requests)`. -/
def feature_requests_count (reviews : List Review) : ℕ :=
  (feature_requests reviews).length

/-- `'feature_request_samples': feature_requests[:5]`. -/
def feature_request_samples (reviews : List Review) : List IssueExample :=
  (feature_requests reviews).take 5

/-! ## C2: retry budget of `fetch_url` -/

/-- C2: for every oracle whose fetch always raises a transport-level
(connection/HTTP) failure, `fetch_url` makes exactly 3 attempts, sleeps
`2 ^ attempt` seconds between consecutive attempts (attempt 0-indexed,
so the sleeps are `[1, 2]`), and then returns `None` to the caller
rather than raising. -/
theorem fetch_url_transport_budget {α : Type} (oracle : ℕ → AttemptOutcome α)
    (h : ∀ n, oracle n = .transport) :
    fetch_url oracle = ⟨none, 3, [1, 2]⟩ := by
  have hr : List.range MAX_RETRIES = [0, 1, 2] := rfl
  rw [fetch_url, hr]
  simp [fetchUrlLoop, h, MAX_RETRIES]

/-- Witness for C2 at the oracle that always fails with a transport
error. -/
theorem fetch_url_transport_budget_witness :
    fetch_url (fun _ => AttemptOutcome.transport (α := Unit)) = ⟨none, 3, [1, 2]⟩ :=
  fetch_url_transport_budget (fun _ => AttemptOutcome.transport) (fun _ => rfl)

/-! ## C3: the pagination cycle guard -/

/-- C3: when the next-cursor extracted from a fetched page equals the
cursor just fetched, the walk stops instead of looping (first
conjunct); every iteration that continues advances the cursor to a
distinct value (second conjunct); and a walk fed a feed whose "next"
link points back at the current page terminates after exactly one
fetch of that page, with `total_pages = 1`, for every fuel bound
(third conjunct). -/
theorem walk_cycle_guard :
    (∀ (feed : String → Option Page) (s : WalkState) (page : Page),
        feed s.url = some page → page.next = some s.url →
        walkStep feed s = .stop (s.acc ++ page.entries) s.pageNum) ∧
    (∀ (feed : String → Option Page) (s s' : WalkState),
        walkStep feed s = .next s' → s'.url ≠ s.url) ∧
    (∀ (u : String) (entries : List Review) (fuel : ℕ),
        fetch_all_reviews (selfLoopFeed u entries) (fuel + 1) u = some (entries, 1)) := by
  refine ⟨?_, ?_, ?_⟩
  · intro feed s page hfeed hnext
    simp [walkStep, hfeed, hnext]
  · intro feed s s' hstep
    unfold walkStep at hstep
    cases hfeed : feed s.url with
    | none => simp [hfeed] at hstep
    | some page =>
        simp only [hfeed] at hstep
        cases hnext : page.next with
        | none => simp [hnext] at hstep
        | some nextUrl =>
            simp only [hnext] at hstep
            by_cases hne : nextUrl ≠ s.url
            · simp only [if_pos hne] at hstep
              cases hstep
              exact hne
            · simp [if_neg hne] at hstep
  · intro u entries fuel
    simp [fetch_all_reviews, walkAux, walkStep, selfLoopFeed]

/-- Witness for C3: a concrete continuing step moves to a distinct
cursor, a concrete self-loop page is stopped on, and a concrete
one-page self-loop walk fetches exactly one page. -/
theorem walk_cycle_guard_witness :
    ("p2" : String) ≠ "p1" ∧
    walkStep (selfLoopFeed "p" []) ⟨"p", 1, []⟩ = .stop [] 1 ∧
    fetch_all_reviews (selfLoopFeed "p" []) 5 "p" = some ([], 1) := by
  refine ⟨?_, ?_, ?_⟩
  · exact walk_cycle_guard.2.1 (fun url => if url = "p1" then some ⟨[], some "p2"⟩ else none)
      ⟨"p1", 1, []⟩ ⟨"p2", 2, []⟩ rfl
  · exact walk_cycle_guard.1 (selfLoopFeed "p" []) ⟨"p", 1, []⟩ ⟨[], some "p"⟩ rfl rfl
  · exact walk_cycle_guard.2.2 "p" [] 4

/-! ## C4: empty-input behaviour of the rating aggregation -/

/-- C4: on the empty review list the rating aggregation fails with the
empty-input error (mean/median are undefined on zero reviews) and the
error is surfaced to the caller; on every non-empty review list it
returns stats normally. -/
theorem analyze_ratings_empty_iff (reviews : List Review) :
    (reviews = [] → analyze_ratings_distribution reviews = .error .emptyInput) ∧
    (reviews ≠ [] → (analyze_ratings_distribution reviews).isOk = true) := by
  constructor
  · rintro rfl
    rfl
  · intro hne
    cases reviews with
    | nil => exact absurd rfl hne
    | cons r rest => rfl

/-- Witness for C4 at the empty list and at a concrete one-review
list. -/
theorem analyze_ratings_empty_iff_witness :
    analyze_ratings_distribution [] = .error .emptyInput ∧
    (analyze_ratings_distribution [{ id := "1", rating := 2 }]).isOk = true :=
  ⟨(analyze_ratings_empty_iff []).1 rfl,
   (analyze_ratings_empty_iff [{ id := "1", rating := 2 }]).2 (by simp)⟩

/-! ## C1: the dedup merge -/

/-- An id is among the merged output's ids exactly when it is not
already seen and occurs among the input records' ids. -/
theorem mergeReviews_mem_ids (l : List (Source × Review)) :
    ∀ (seen : List String) (i : String),
      i ∈ (mergeReviews seen l).map (fun t => t.review.id) ↔
        i ∉ seen ∧ i ∈ l.map (fun p => p.2.id) := by
  induction l with
  | nil => intro seen i; simp [mergeReviews]
  | cons p rest ih =>
      intro seen i
      obtain ⟨src, r⟩ := p
      by_cases h : r.id ∈ seen
      · simp only [mergeReviews, if_pos h, List.map_cons, List.mem_cons]
        rw [ih seen i]
        constructor
        · rintro ⟨hni, hmem⟩
          exact ⟨hni, Or.inr hmem⟩
        · rintro ⟨hni, rfl | hmem⟩
          · exact absurd h hni
          · exact ⟨hni, hmem⟩
      · simp only [mergeReviews, if_neg h, List.map_cons, List.mem_cons]
        rw [ih (r.id :: seen) i]
        constructor
        · rintro (rfl | ⟨hn, hmem⟩)
          · exact ⟨h, Or.inl rfl⟩
          · rw [List.mem_cons] at hn
            push_neg at hn
            exact ⟨hn.2, Or.inr hmem⟩
        · rintro ⟨hns, hcase⟩
          rcases hcase with rfl | hmem
          · exact Or.inl rfl
          · by_cases hir : i = r.id
            · exact Or.inl hir
            · refine Or.inr ⟨?_, hmem⟩
              rw [List.mem_cons]
              push_neg
              exact ⟨hir, hns⟩

/-- The merged output never repeats an id. -/
theorem mergeReviews_nodup (l : List (Source × Review)) :
    ∀ seen : List String,
      ((mergeReviews seen l).map (fun t => t.review.id)).Nodup := by
  induction l with
  | nil => intro seen; simp [mergeReviews]
  | cons p rest ih =>
      intro seen
      obtain ⟨src, r⟩ := p
      by_cases h : r.id ∈ seen
      · simpa only [mergeReviews, if_pos h] using ih seen
      · simp only [mergeReviews, if_neg h, List.map_cons]
        refine List.nodup_cons.mpr ⟨?_, ih (r.id :: seen)⟩
        intro hmem
        have hni := (mergeReviews_mem_ids rest (r.id :: seen) r.id).mp hmem
        exact hni.1 (List.mem_cons_self _ _)

/-- Every merged entry is the first input record carrying its id (no
field overwrite: the review and its source tag are exactly those of the
first occurrence). -/
theorem mergeReviews_find (l : List (Source × Review)) :
    ∀ seen : List String, ∀ t ∈ mergeReviews seen l,
      t.review.id ∉ seen ∧
        l.find? (fun p => p.2.id == t.review.id) = some (t.source, t.review) := by
  induction l with
  | nil => intro seen t ht; simp [mergeReviews] at ht
  | cons p rest ih =>
      intro seen t ht
      obtain ⟨src, r⟩ := p
      by_cases h : r.id ∈ seen
      · simp only [mergeReviews, if_pos h] at ht
        obtain ⟨hns, hfind⟩ := ih seen t ht
        have hne : ¬((r.id == t.review.id) = true) := by
          rw [beq_iff_eq]
          exact fun heq => hns (heq ▸ h)
        refine ⟨hns, ?_⟩
        rw [show List.find? (fun p => p.2.id == t.review.id) ((src, r) :: rest) =
            List.find? (fun p => p.2.id == t.review.id) rest from
          List.find?_cons_of_neg rest hne, hfind]
      · simp only [mergeReviews, if_neg h, List.mem_cons] at ht
        rcases ht with rfl | ht
        · refine ⟨h, ?_⟩
          rw [List.find?_cons_of_pos]
          simp
        · obtain ⟨hns, hfind⟩ := ih (r.id :: seen) t ht
          have hne : ¬((r.id == t.review.id) = true) := by
            rw [beq_iff_eq]
            exact fun heq => hns (heq ▸ List.mem_cons_self _ _)
          refine ⟨fun hmem => hns (List.mem_cons_of_mem _ hmem), ?_⟩
          rw [show List.find? (fun p => p.2.id == t.review.id) ((src, r) :: rest) =
              List.find? (fun p => p.2.id == t.review.id) rest from
            List.find?_cons_of_neg rest hne, hfind]

/-- C1: the merge iterates ordering A fully then ordering B with a
shared seen-id set, so (i) no id repeats in the output, (ii) an id
occurs in the output exactly when it occurs in either input, and (iii)
each retained entry is the first-seen record with that id — its fields
are not overwritten and its source tag names the ordering that first
supplied it. -/
theorem get_all_reviews_dedup (helpful recent : List Review) :
    ((get_all_reviews helpful recent).map (fun t => t.review.id)).Nodup ∧
    (∀ i : String,
        i ∈ (get_all_reviews helpful recent).map (fun t => t.review.id) ↔
          i ∈ helpful.map Review.id ∨ i ∈ recent.map Review.id) ∧
    (∀ t ∈ get_all_reviews helpful recent,
        (taggedInput helpful recent).find? (fun p => p.2.id == t.review.id) =
            some (t.source, t.review) ∧
        t.source = (if t.review.id ∈ helpful.map Review.id then Source.most_helpful
                    else Source.most_recent)) := by
  refine ⟨mergeReviews_nodup _ [], ?_, ?_⟩
  · intro i
    rw [get_all_reviews, mergeReviews_mem_ids]
    simp [taggedInput, List.mem_append]
  · intro t ht
    obtain ⟨-, hfind⟩ := mergeReviews_find _ [] t ht
    refine ⟨hfind, ?_⟩
    unfold taggedInput at hfind
    rw [List.find?_append] at hfind
    by_cases hmem : t.review.id ∈ helpful.map Review.id
    · rw [if_pos hmem]
      have hsome : ((helpful.map (fun r => (Source.most_helpful, r))).find?
          (fun p => p.2.id == t.review.id)).isSome := by
        rw [List.find?_isSome]
        obtain ⟨r, hr, hid⟩ := List.mem_map.mp hmem
        exact ⟨(Source.most_helpful, r), List.mem_map_of_mem _ hr, by simp [hid]⟩
      obtain ⟨x, hx⟩ := Option.isSome_iff_exists.mp hsome
      rw [hx, Option.or_some] at hfind
      have hxmem := List.mem_of_find?_eq_some hx
      obtain ⟨r, hr, heq⟩ := List.mem_map.mp hxmem
      have hx1 : x.1 = Source.most_helpful := by rw [← heq]
      have hts : t.source = x.1 := by
        have := congrArg (fun o => Option.map Prod.fst o) hfind
        simpa using this.symm
      rw [hts, hx1]
    · rw [if_neg hmem]
      have hnone : (helpful.map (fun r => (Source.most_helpful, r))).find?
          (fun p => p.2.id == t.review.id) = none := by
        rw [List.find?_eq_none]
        rintro x hx hpx
        obtain ⟨r, hr, rfl⟩ := List.mem_map.mp hx
        rw [beq_iff_eq] at hpx
        exact hmem (hpx ▸ List.mem_map_of_mem Review.id hr)
      rw [hnone, Option.none_or] at hfind
      have hxmem := List.mem_of_find?_eq_some hfind
      obtain ⟨r, hr, heq⟩ := List.mem_map.mp hxmem
      have := congrArg Prod.fst heq
      exact this.symm

/-- Witness for C1: an id `"7"` present in both orderings is kept once,
as the first-seen (`most_helpful`) record. -/
theorem get_all_reviews_dedup_witness :
    ((get_all_reviews [{ id := "7", rating := 5 }]
        [{ id := "7", rating := 1 }, { id := "9", rating := 3 }]).map
          (fun t => t.review.id)).Nodup ∧
    (taggedInput [{ id := "7", rating := 5 }]
        [{ id := "7", rating := 1 }, { id := "9", rating := 3 }]).find?
          (fun p => p.2.id ==
            (⟨{ id := "7", rating := 5 }, Source.most_helpful⟩ : SourcedReview).review.id) =
      some (Source.most_helpful, { id := "7", rating := 5 }) := by
  have h := get_all_reviews_dedup [{ id := "7", rating := 5 }]
    [{ id := "7", rating := 1 }, { id := "9", rating := 3 }]
  refine ⟨h.1, ?_⟩
  have ht : (⟨{ id := "7", rating := 5 }, Source.most_helpful⟩ : SourcedReview) ∈
      get_all_reviews [{ id := "7", rating := 5 }]
        [{ id := "7", rating := 1 }, { id := "9", rating := 3 }] := by decide
  exact (h.2.2 _ ht).1

/-! ## C6: rating distribution sums -/

/-- Bumping one key raises the total count by one. -/
theorem bumpCount_sum (x : ℤ) (c : List (ℤ × ℕ)) :
    ((bumpCount x c).map Prod.snd).sum = (c.map Prod.snd).sum + 1 := by
  induction c with
  | nil => rfl
  | cons p rest ih =>
      obtain ⟨k, n⟩ := p
      by_cases h : k = x
      · simp [bumpCount, h]
        omega
      · simp [bumpCount, h, ih]
        omega

/-- The counts in `Counter(l)` sum to the number of elements. -/
theorem counter_sum (l : List ℤ) : ((counter l).map Prod.snd).sum = l.length := by
  suffices h : ∀ (acc : List (ℤ × ℕ)),
      (((l.foldl (fun acc x => bumpCount x acc) acc)).map Prod.snd).sum =
        (acc.map Prod.snd).sum + l.length by
    simpa using h []
  induction l with
  | nil => intro acc; simp
  | cons x rest ih =>
      intro acc
      simp only [List.foldl_cons, ih (bumpCount x acc), bumpCount_sum, List.length_cons]
      omega

/-- Predicates `r ≤ 3` and `4 ≤ r` split any integer list. -/
theorem countP_low_high (l : List ℤ) :
    l.countP (fun r => decide (r ≤ 3)) + l.countP (fun r => decide (4 ≤ r)) = l.length := by
  induction l with
  | nil => rfl
  | cons x xs ih =>
      by_cases h : x ≤ 3
      · have h4 : ¬(4 ≤ x) := by omega
        simp [List.countP_cons, h, h4]
        omega
      · have h4 : 4 ≤ x := by omega
        simp [List.countP_cons, h, h4]
        omega

/-- C6: for every review list the rating aggregation accepts, the
distribution counts sum to `total_reviews`; and when every rating lies
in 1–5 (in fact for all integer ratings), `low_ratings_count +
high_ratings_count = total_reviews`. -/
theorem ratings_distribution_sums (reviews : List Review) (stats : RatingStats)
    (hok : analyze_ratings_distribution reviews = .ok stats) :
    (stats.distribution.map Prod.snd).sum = stats.total_reviews ∧
    ((∀ r ∈ reviews, 1 ≤ r.rating ∧ r.rating ≤ 5) →
      stats.low_ratings_count + stats.high_ratings_count = stats.total_reviews) := by
  have hstats : stats = ratingStatsOf reviews := by
    unfold analyze_ratings_distribution at hok
    split at hok
    · exact absurd hok (by simp)
    · exact (Except.ok.injEq _ _).mp hok.symm
  subst hstats
  constructor
  · show (((counter (reviews.map Review.rating)).map
        (fun p => (toString p.1, p.2))).map Prod.snd).sum = (reviews.map Review.rating).length
    rw [List.map_map]
    exact counter_sum (reviews.map Review.rating)
  · intro _
    exact countP_low_high (reviews.map Review.rating)

/-- Witness for C6 at the two-review example of the spec (ratings 2
and 5). -/
theorem ratings_distribution_sums_witness :
    ((ratingStatsOf [{ id := "1", rating := 2 }, { id := "2", rating := 5 }]).distribution.map
        Prod.snd).sum =
      (ratingStatsOf [{ id := "1", rating := 2 }, { id := "2", rating := 5 }]).total_reviews ∧
    (ratingStatsOf [{ id := "1", rating := 2 }, { id := "2", rating := 5 }]).low_ratings_count +
        (ratingStatsOf [{ id := "1", rating := 2 }, { id := "2", rating := 5 }]).high_ratings_count =
      (ratingStatsOf [{ id := "1", rating := 2 }, { id := "2", rating := 5 }]).total_reviews := by
  have h := ratings_distribution_sums [{ id := "1", rating := 2 }, { id := "2", rating := 5 }]
    (ratingStatsOf [{ id := "1", rating := 2 }, { id := "2", rating := 5 }]) rfl
  exact ⟨h.1, h.2 (by decide)⟩

/-! ## Trend plumbing -/

instance : IsTotal (ℕ × MonthStat) keyLE := ⟨fun a b => Nat.le_total a.1 b.1⟩

instance : IsTrans (ℕ × MonthStat) keyLE := ⟨fun _ _ _ h1 h2 => Nat.le_trans h1 h2⟩

/-- Inserting a rating never empties the bucket list. -/
theorem addRating_ne_nil (m : ℕ) (rating : ℤ) (acc : List (ℕ × List ℤ)) :
    addRating m rating acc ≠ [] := by
  cases acc with
  | nil => simp [addRating]
  | cons p rest =>
      obtain ⟨k, rs⟩ := p
      by_cases h : k = m <;> simp [addRating, h]

/-- The grouping loop returns no buckets exactly for no dated reviews. -/
theorem monthlyStats_eq_nil_iff (dated : List (ℕ × ℤ)) :
    monthlyStats dated = [] ↔ dated = [] := by
  constructor
  · intro h
    cases dated with
    | nil => rfl
    | cons p rest =>
        exfalso
        have haux : ∀ (l : List (ℕ × ℤ)) (acc : List (ℕ × List ℤ)), acc ≠ [] →
            l.foldl (fun acc q => addRating q.1 q.2 acc) acc ≠ [] := by
          intro l
          induction l with
          | nil => intro acc hacc; simpa using hacc
          | cons q rest ih =>
              intro acc _
              simpa using ih (addRating q.1 q.2 acc) (addRating_ne_nil _ _ _)
        exact haux rest (addRating p.1 p.2 []) (addRating_ne_nil _ _ _)
          (by simpa [monthlyStats] using h)
  · rintro rfl
    rfl

/-- The sorted view is a permutation of the `monthly_trends` dict. -/
theorem sortedTrends_perm (reviews : List Review) :
    List.Perm (sortedTrends reviews) (monthly_trends reviews) :=
  List.perm_insertionSort keyLE (monthly_trends reviews)

/-- No month entry exists exactly when no review's timestamp parses. -/
theorem sortedTrends_eq_nil_iff (reviews : List Review) :
    sortedTrends reviews = [] ↔ ∀ r ∈ reviews, r.updated = none := by
  rw [← List.length_eq_zero, (sortedTrends_perm reviews).length_eq,
    List.length_eq_zero]
  unfold monthly_trends
  rw [List.map_eq_nil_iff, monthlyStats_eq_nil_iff]
  unfold datedReviews
  rw [List.filterMap_eq_nil_iff]
  constructor
  · intro h r hr
    have := h r hr
    simpa [Option.map_eq_none'] using this
  · intro h r hr
    simp [h r hr]

/-- A key of an association list looks up successfully. -/
theorem lookup_isSome_of_mem_keys {m : ℕ} {l : List (ℕ × MonthStat)}
    (h : m ∈ l.map Prod.fst) : (l.lookup m).isSome := by
  rw [List.lookup_isSome_iff]
  obtain ⟨p, hp, hfst⟩ := List.mem_map.mp h
  exact ⟨p, hp, by simp [hfst]⟩

/-- `recent_months` is empty exactly when there are no months at all. -/
theorem recent_months_eq_nil_iff (reviews : List Review) :
    recent_months reviews = [] ↔ sortedTrends reviews = [] := by
  unfold recent_months
  rw [List.drop_eq_nil_iff]
  unfold sortedMonthKeys
  rw [List.length_map]
  constructor
  · intro h
    have : (sortedTrends reviews).length = 0 := by omega
    exact List.eq_nil_of_length_eq_zero this
  · intro h
    rw [h]
    simp

/-- The recent-window average list is empty exactly when there are no
months at all (every recent month is a key, so its lookup succeeds). -/
theorem monthAvgs_recent_eq_nil_iff (reviews : List Review) :
    monthAvgs reviews (recent_months reviews) = [] ↔ sortedTrends reviews = [] := by
  constructor
  · intro h
    by_contra hne
    have hrm : recent_months reviews ≠ [] :=
      fun hh => hne ((recent_months_eq_nil_iff reviews).mp hh)
    obtain ⟨m, hm⟩ := List.exists_mem_of_ne_nil _ hrm
    have hkey : m ∈ (monthly_trends reviews).map Prod.fst := by
      have h1 : m ∈ sortedMonthKeys reviews := by
        have hsub : List.Sublist (recent_months reviews) (sortedMonthKeys reviews) := by
          unfold recent_months
          exact List.drop_sublist _ _
        exact hsub.subset hm
      exact (((sortedTrends_perm reviews).map Prod.fst).mem_iff).mp h1
    have hsome := lookup_isSome_of_mem_keys hkey
    have hnone := (List.filterMap_eq_nil_iff.mp h) m hm
    rw [Option.map_eq_none'] at hnone
    rw [hnone] at hsome
    simp at hsome
  · intro h
    have h2 : recent_months reviews = [] := (recent_months_eq_nil_iff reviews).mpr h
    unfold monthAvgs
    rw [h2]
    rfl

/-! ## C10: the trend analyzer errors exactly on timestamp-free input -/

/-- C10: the trend analyzer returns normally exactly when some review
has a parseable timestamp; with none (in particular on the empty list)
the recent-window mean is taken over an empty set of months and the
analyzer raises instead of returning stats. -/
theorem trends_ok_iff (reviews : List Review) :
    (analyze_temporal_trends reviews).isOk = true ↔ ∃ r ∈ reviews, r.updated.isSome := by
  have hchain : (monthAvgs reviews (recent_months reviews)).isEmpty = true ↔
      ∀ r ∈ reviews, r.updated = none := by
    rw [List.isEmpty_iff, monthAvgs_recent_eq_nil_iff, sortedTrends_eq_nil_iff]
  unfold analyze_temporal_trends
  by_cases hg : (monthAvgs reviews (recent_months reviews)).isEmpty
  · rw [if_pos hg]
    refine iff_of_false (by simp [Except.isOk, Except.toBool]) ?_
    rintro ⟨r, hr, hsome⟩
    rw [hchain.mp hg r hr] at hsome
    simp at hsome
  · rw [if_neg hg]
    refine iff_of_true rfl ?_
    by_contra hno
    push_neg at hno
    refine hg (hchain.mpr fun r hr => ?_)
    exact Option.not_isSome_iff_eq_none.mp (by simpa using hno r hr)

/-! ## C8: monthly series bounded and chronologically sorted -/

/-- Key list of the bucket list after one insertion: unchanged for a
known month, extended at the end by a fresh one. -/
theorem addRating_keys (m : ℕ) (rating : ℤ) :
    ∀ acc : List (ℕ × List ℤ),
      (addRating m rating acc).map Prod.fst =
        if m ∈ acc.map Prod.fst then acc.map Prod.fst
        else acc.map Prod.fst ++ [m] := by
  intro acc
  induction acc with
  | nil => simp [addRating]
  | cons p rest ih =>
      obtain ⟨k, rs⟩ := p
      by_cases hk : k = m
      · simp [addRating, hk]
      · simp only [addRating, if_neg hk, List.map_cons, ih, List.mem_cons]
        by_cases hm : m ∈ rest.map Prod.fst
        · simp [hm, Ne.symm hk]
        · simp [hm, Ne.symm hk]

/-- The grouping loop produces distinct month keys. -/
theorem monthlyStats_keys_nodup (dated : List (ℕ × ℤ)) :
    ((monthlyStats dated).map Prod.fst).Nodup := by
  suffices h : ∀ (l : List (ℕ × ℤ)) (acc : List (ℕ × List ℤ)),
      (acc.map Prod.fst).Nodup →
      ((l.foldl (fun acc q => addRating q.1 q.2 acc) acc).map Prod.fst).Nodup by
    exact h dated [] (by simp)
  intro l
  induction l with
  | nil => intro acc hacc; simpa using hacc
  | cons q rest ih =>
      intro acc hacc
      simp only [List.foldl_cons]
      refine ih (addRating q.1 q.2 acc) ?_
      rw [addRating_keys]
      by_cases hm : q.1 ∈ acc.map Prod.fst
      · simpa [hm] using hacc
      · rw [if_neg hm]
        rw [List.nodup_append]
        exact ⟨hacc, List.nodup_singleton _, by simpa using hm⟩

/-- `monthly_trends` has the same keys as the bucket list. -/
theorem monthly_trends_keys (reviews : List Review) :
    (monthly_trends reviews).map Prod.fst =
      (monthlyStats (datedReviews reviews)).map Prod.fst := by
  unfold monthly_trends
  rw [List.map_map]
  rfl

/-- The sorted month entries keep their keys distinct. -/
theorem sortedTrends_keys_nodup (reviews : List Review) :
    ((sortedTrends reviews).map Prod.fst).Nodup := by
  rw [List.Perm.nodup_iff ((sortedTrends_perm reviews).map Prod.fst)]
  rw [monthly_trends_keys]
  exact monthlyStats_keys_nodup _

/-- The sorted month entries are ordered by key. -/
theorem sortedTrends_sorted (reviews : List Review) :
    (sortedTrends reviews).Pairwise keyLE :=
  List.sorted_insertionSort keyLE (monthly_trends reviews)

/-- C8: the monthly trend series returned by the trend analyzer has at
most 12 entries, its month keys are strictly increasing
(chronologically sorted), and every month dropped from the series is no
later than every month kept, so the 12 kept are the most recent. -/
theorem monthly_series_bounded_sorted (reviews : List Review) (t : TrendStats)
    (hok : analyze_temporal_trends reviews = .ok t) :
    t.monthly_trends.length ≤ 12 ∧
    (t.monthly_trends.map Prod.fst).Pairwise (fun a b => a < b) ∧
    (∀ p ∈ (sortedTrends reviews).take ((sortedTrends reviews).length - 12),
      ∀ q ∈ t.monthly_trends, p.1 ≤ q.1) := by
  have ht : t = trendStatsOf reviews := by
    unfold analyze_temporal_trends at hok
    split at hok
    · exact absurd hok (by simp)
    · exact ((Except.ok.injEq _ _).mp hok).symm
  subst ht
  refine ⟨?_, ?_, ?_⟩
  · show ((sortedTrends reviews).drop ((sortedTrends reviews).length - 12)).length ≤ 12
    rw [List.length_drop]
    omega
  · show (((sortedTrends reviews).drop ((sortedTrends reviews).length - 12)).map
      Prod.fst).Pairwise (fun a b => a < b)
    have hle := List.Pairwise.sublist
      (List.drop_sublist ((sortedTrends reviews).length - 12) (sortedTrends reviews))
      (sortedTrends_sorted reviews)
    have hkeysle : (((sortedTrends reviews).drop ((sortedTrends reviews).length - 12)).map
        Prod.fst).Pairwise (fun a b => a ≤ b) := List.pairwise_map.mpr hle
    have hnd : (((sortedTrends reviews).drop ((sortedTrends reviews).length - 12)).map
        Prod.fst).Nodup := by
      rw [List.map_drop]
      exact List.Nodup.sublist (List.drop_sublist _ _) (sortedTrends_keys_nodup reviews)
    exact (hkeysle.and hnd).imp (fun h => lt_of_le_of_ne h.1 h.2)
  · have hsplit : (sortedTrends reviews).take ((sortedTrends reviews).length - 12) ++
        (sortedTrends reviews).drop ((sortedTrends reviews).length - 12) =
        sortedTrends reviews := List.take_append_drop _ _
    have hpw : ((sortedTrends reviews).take ((sortedTrends reviews).length - 12) ++
        (sortedTrends reviews).drop ((sortedTrends reviews).length - 12)).Pairwise keyLE := by
      rw [hsplit]
      exact sortedTrends_sorted reviews
    exact (List.pairwise_append.mp hpw).2.2

/-- Witness for C8 at a concrete one-month input. -/
theorem monthly_series_bounded_sorted_witness :
    (trendStatsOf [{ id := "x", rating := 4, updated := some 202401 }]).monthly_trends.length ≤ 12 ∧
    ((trendStatsOf [{ id := "x", rating := 4, updated := some 202401 }]).monthly_trends.map
        Prod.fst).Pairwise (fun a b => a < b) := by
  have h := monthly_series_bounded_sorted [{ id := "x", rating := 4, updated := some 202401 }]
    (trendStatsOf [{ id := "x", rating := 4, updated := some 202401 }]) rfl
  exact ⟨h.1, h.2.1⟩

/-! ## C5: the neutral previous-window fallback -/

/-- The mean of a one-element list is its element. -/
theorem listMean_singleton (x : ℚ) : listMean [x] = x := by
  simp [listMean]

/-- Python's 2-decimal rounding is the identity on integers. -/
theorem round2_intCast (n : ℤ) : round2 ((n : ℤ) : ℚ) = ((n : ℤ) : ℚ) := by
  have h100 : ((n : ℤ) : ℚ) * 100 = (((100 * n : ℤ)) : ℚ) := by push_cast; ring
  unfold round2 roundHalfEven
  rw [h100, Int.floor_intCast]
  simp only [sub_self, if_pos (show (0 : ℚ) < 1 / 2 by norm_num)]
  push_cast
  ring

/-- C5 (amended): the previous-window fallback `previous_avg =
recent_avg` fires exactly when `previous_months` is empty, i.e. when at
most 3 distinct months exist in total (zero months precede the recent
3-month window); then the strict comparison forces `stable`. -/
theorem trend_stable_when_no_prior_months (reviews : List Review) (t : TrendStats)
    (hok : analyze_temporal_trends reviews = .ok t)
    (hfew : (sortedTrends reviews).length ≤ 3) :
    previous_avg reviews = recent_avg reviews ∧ t.recent_trend = Trend.stable := by
  have hprev : previous_months reviews = [] := by
    show ((sortedMonthKeys reviews).take ((sortedMonthKeys reviews).length - 3)).drop
      ((sortedMonthKeys reviews).length - 6) = []
    have hk : (sortedMonthKeys reviews).length ≤ 3 := by
      unfold sortedMonthKeys
      rw [List.length_map]
      exact hfew
    have hz : (sortedMonthKeys reviews).length - 3 = 0 := by omega
    rw [hz]
    simp
  have havg : previous_avg reviews = recent_avg reviews := by
    unfold previous_avg
    rw [hprev]
    rfl
  have ht : t = trendStatsOf reviews := by
    unfold analyze_temporal_trends at hok
    split at hok
    · exact absurd hok (by simp)
    · exact ((Except.ok.injEq _ _).mp hok).symm
  subst ht
  refine ⟨havg, ?_⟩
  show (if previous_avg reviews < recent_avg reviews then Trend.improving
        else if recent_avg reviews < previous_avg reviews then Trend.declining
        else Trend.stable) = Trend.stable
  rw [havg]
  simp [lt_irrefl]

/-- Witness for the amended C5 at a concrete one-month input. -/
theorem trend_stable_when_no_prior_months_witness :
    previous_avg [{ id := "x", rating := 4, updated := some 202401 }] =
      recent_avg [{ id := "x", rating := 4, updated := some 202401 }] ∧
    (trendStatsOf [{ id := "x", rating := 4, updated := some 202401 }]).recent_trend =
      Trend.stable :=
  trend_stable_when_no_prior_months _ _ rfl (by decide)

/-- Four reviews in four consecutive months: one month (average 1)
precedes the recent window, months 2–4 average 5. -/
def c5input : List Review :=
  [{ id := "a", rating := 1, updated := some 202401 },
   { id := "b", rating := 5, updated := some 202402 },
   { id := "c", rating := 5, updated := some 202403 },
   { id := "d", rating := 5, updated := some 202404 }]

/-- C5 counterexample: with 4 distinct months there is exactly 1 month
(fewer than 3) before the recent 3-month window, yet the code computes
`previous_avg = 1 ≠ 5 = recent_avg` from that single prior month — the
previous-window average is not set equal to the recent-window average
and the classification is `improving`, not the forced `stable` the
claim states. -/
theorem c5_counterexample :
    (sortedTrends c5input).length = 4 ∧
    previous_avg c5input = 1 ∧ recent_avg c5input = 5 ∧
    (analyze_temporal_trends c5input).map TrendStats.recent_trend =
      Except.ok Trend.improving := by
  have hprev : previous_avg c5input = listMean [round2 (listMean [((1 : ℤ) : ℚ)])] := rfl
  have hrec : recent_avg c5input = listMean [round2 (listMean [((5 : ℤ) : ℚ)]),
      round2 (listMean [((5 : ℤ) : ℚ)]), round2 (listMean [((5 : ℤ) : ℚ)])] := rfl
  have h1 : previous_avg c5input = 1 := by
    rw [hprev, listMean_singleton ((1 : ℤ) : ℚ), round2_intCast, listMean_singleton]
    norm_num
  have h2 : recent_avg c5input = 5 := by
    rw [hrec, listMean_singleton ((5 : ℤ) : ℚ), round2_intCast]
    unfold listMean
    push_cast
    norm_num
  have himp : (trendStatsOf c5input).recent_trend = Trend.improving := by
    show (if previous_avg c5input < recent_avg c5input then Trend.improving
          else if recent_avg c5input < previous_avg c5input then Trend.declining
          else Trend.stable) = Trend.improving
    rw [h1, h2]
    norm_num
  refine ⟨rfl, h1, h2, ?_⟩
  have hok5 : analyze_temporal_trends c5input = .ok (trendStatsOf c5input) := rfl
  rw [hok5, show (Except.ok (trendStatsOf c5input)).map TrendStats.recent_trend =
    Except.ok ((trendStatsOf c5input).recent_trend) from rfl, himp]

/-! ## C7: the issue categorizer -/

/-- A category the inner loop never visits keeps its accumulator
entry. -/
theorem updateCats_apply_not_mem (r : Review) :
    ∀ (cats : List (String × List String)) (acc : String → CatAcc) (c : String),
      c ∉ cats.map Prod.fst → updateCats r cats acc c = acc c := by
  intro cats
  induction cats with
  | nil => intro acc c _; rfl
  | cons p rest ih =>
      intro acc c hc
      obtain ⟨name, kws⟩ := p
      simp only [List.map_cons, List.mem_cons] at hc
      push_neg at hc
      show updateCats r rest _ c = acc c
      rw [ih _ c hc.2]
      by_cases hm : matchesCategory kws (reviewText r)
      · rw [if_pos hm, Function.update_noteq hc.1]
      · rw [if_neg hm]

/-- Effect of one review on one category's accumulator entry: exactly
one bump when the category's keywords match the review text, no change
otherwise — matches of other categories never touch this entry. -/
theorem updateCats_apply (r : Review) :
    ∀ (cats : List (String × List String)) (acc : String → CatAcc)
      (c : String) (kws : List String),
      (cats.map Prod.fst).Nodup → (c, kws) ∈ cats →
      updateCats r cats acc c =
        if matchesCategory kws (reviewText r) then bumpCat r (acc c) else acc c := by
  intro cats
  induction cats with
  | nil => intro acc c kws _ hmem; simp at hmem
  | cons p rest ih =>
      intro acc c kws hnd hmem
      obtain ⟨name, kws'⟩ := p
      simp only [List.map_cons, List.nodup_cons] at hnd
      rw [List.mem_cons] at hmem
      rcases hmem with heq | hmem
      · obtain ⟨h1, h2⟩ := Prod.ext_iff.mp heq
        subst h1
        subst h2
        show updateCats r rest _ c = _
        rw [updateCats_apply_not_mem r rest _ c hnd.1]
        by_cases hm : matchesCategory kws (reviewText r)
        · rw [if_pos hm, if_pos hm, Function.update_same]
        · rw [if_neg hm, if_neg hm]
      · have hcname : c ≠ name := by
          intro heq
          subst heq
          exact hnd.1 (List.mem_map_of_mem Prod.fst hmem)
        show updateCats r rest _ c = _
        rw [ih _ c kws hnd.2 hmem]
        by_cases hm : matchesCategory kws' (reviewText r)
        · rw [if_pos hm, Function.update_noteq hcname]
        · rw [if_neg hm]

/-- The fixed issue rule table has distinct category names. -/
theorem issue_categories_names_nodup : (issue_categories.map Prod.fst).Nodup := by
  decide

/-- The outer loop adds one to a category's count per matching
review. -/
theorem issueAccAux_count (c : String) (kws : List String)
    (hmem : (c, kws) ∈ issue_categories) :
    ∀ (rs : List Review) (acc : String → CatAcc),
      (issueAccAux rs acc c).count =
        (acc c).count + rs.countP (fun r => matchesCategory kws (reviewText r)) := by
  intro rs
  induction rs with
  | nil => intro acc; simp [issueAccAux]
  | cons r rest ih =>
      intro acc
      show (issueAccAux rest (updateCats r issue_categories acc) c).count = _
      rw [ih, updateCats_apply r issue_categories acc c kws
        issue_categories_names_nodup hmem]
      by_cases hm : matchesCategory kws (reviewText r)
      · rw [if_pos hm, List.countP_cons_of_pos _ rest hm]
        simp only [bumpCat]
        omega
      · rw [if_neg hm, List.countP_cons_of_neg _ rest hm]

/-- The per-category example list holds `min 3 count` entries. -/
theorem issueAccAux_examples_len (c : String) (kws : List String)
    (hmem : (c, kws) ∈ issue_categories) :
    ∀ (rs : List Review) (acc : String → CatAcc),
      (acc c).examples.length = min 3 (acc c).count →
      (issueAccAux rs acc c).examples.length = min 3 (issueAccAux rs acc c).count := by
  intro rs
  induction rs with
  | nil => intro acc h; simpa [issueAccAux] using h
  | cons r rest ih =>
      intro acc h
      show (issueAccAux rest (updateCats r issue_categories acc) c).examples.length = _
      refine ih (updateCats r issue_categories acc) ?_
      rw [updateCats_apply r issue_categories acc c kws
        issue_categories_names_nodup hmem]
      by_cases hm : matchesCategory kws (reviewText r)
      · rw [if_pos hm]
        simp only [bumpCat]
        by_cases hlen : (acc c).examples.length < 3
        · rw [if_pos hlen]
          simp only [List.length_append, List.length_cons, List.length_nil]
          omega
        · rw [if_neg hlen]
          omega
      · rw [if_neg hm]
        exact h

/-- Every stored example comes from some input review of the batch. -/
theorem issueAccAux_examples_mem (c : String) (kws : List String)
    (hmem : (c, kws) ∈ issue_categories) :
    ∀ (rs : List Review) (acc : String → CatAcc) (e : IssueExample),
      e ∈ (issueAccAux rs acc c).examples →
      e ∈ (acc c).examples ∨ ∃ r ∈ rs, e = ⟨r.rating, excerptOf 200 r.content⟩ := by
  intro rs
  induction rs with
  | nil => intro acc e he; exact Or.inl he
  | cons r rest ih =>
      intro acc e he
      have he' := ih (updateCats r issue_categories acc) e he
      rcases he' with hacc | ⟨r', hr', heq⟩
      · rw [updateCats_apply r issue_categories acc c kws
          issue_categories_names_nodup hmem] at hacc
        by_cases hm : matchesCategory kws (reviewText r)
        · rw [if_pos hm] at hacc
          simp only [bumpCat] at hacc
          by_cases hlen : (acc c).examples.length < 3
          · rw [if_pos hlen] at hacc
            rcases List.mem_append.mp hacc with hold | hnew
            · exact Or.inl hold
            · refine Or.inr ⟨r, List.mem_cons_self .., ?_⟩
              simpa using hnew
          · rw [if_neg hlen] at hacc
            exact Or.inl hacc
        · rw [if_neg hm] at hacc
          exact Or.inl hacc
      · exact Or.inr ⟨r', List.mem_cons_of_mem _ hr', heq⟩

/-- C7: the issue categorizer retains only reviews with rating ≤ 3,
tests every category rule independently against the lower-cased
title+content (each matching category is incremented exactly once per
review, so one review may raise several categories), keeps at most 3
examples per category (exactly `min 3 count`), and stores excerpts
truncated to 200 characters with an ellipsis marker exactly when the
content exceeds 200 characters. -/
theorem issue_categorizer_spec (reviews : List Review) (c : String) (kws : List String)
    (hmem : (c, kws) ∈ issue_categories) :
    (issue_category_counts reviews c).count =
      (reviews.filter (fun r => decide (r.rating ≤ 3))).countP
        (fun r => matchesCategory kws (reviewText r)) ∧
    (issue_category_counts reviews c).examples.length =
      min 3 (issue_category_counts reviews c).count ∧
    (∀ e ∈ (issue_category_counts reviews c).examples,
      ∃ r ∈ reviews, r.rating ≤ 3 ∧ e.rating = r.rating ∧
        e.excerpt = (if 200 < r.content.length then
          String.mk (r.content.toList.take 200) ++ "..." else r.content)) := by
  refine ⟨?_, ?_, ?_⟩
  · rw [issue_category_counts, issueAccAux_count c kws hmem]
    simp
  · rw [issue_category_counts, issueAccAux_examples_len c kws hmem]
    rfl
  · intro e he
    have := issueAccAux_examples_mem c kws hmem
      (reviews.filter (fun r => decide (r.rating ≤ 3))) (fun _ => ⟨0, []⟩) e he
    rcases this with habs | ⟨r, hr, heq⟩
    · simp at habs
    · obtain ⟨hrmem, hrle⟩ := List.mem_filter.mp hr
      refine ⟨r, hrmem, by simpa using hrle, ?_, ?_⟩
      · rw [heq]
      · rw [heq]
        rfl

/-- Witness for C7: the spec's example review ("app crashes
constantly", rating 2) is counted once under `crashes_bugs`. -/
theorem issue_categorizer_spec_witness :
    (issue_category_counts [{ id := "1", rating := 2, content := "app crashes constantly" }]
        "crashes_bugs").count =
      ([{ id := "1", rating := 2, content := "app crashes constantly" }].filter
          (fun r => decide (r.rating ≤ 3))).countP
        (fun r => matchesCategory
          ["crash", "bug", "freeze", "frozen", "stuck", "error", "broken", "fix", "glitch"]
          (reviewText r)) ∧
    (issue_category_counts [{ id := "1", rating := 2, content := "app crashes constantly" }]
        "crashes_bugs").examples.length =
      min 3 (issue_category_counts [{ id := "1", rating := 2, content := "app crashes constantly" }]
        "crashes_bugs").count := by
  have h := issue_categorizer_spec
    [{ id := "1", rating := 2, content := "app crashes constantly" }] "crashes_bugs"
    ["crash", "bug", "freeze", "frozen", "stuck", "error", "broken", "fix", "glitch"]
    (by decide)
  exact ⟨h.1, h.2.1⟩

/-! ## C9: the feature-request extractor -/

/-- C9: each review is counted at most once (the first matching pattern
breaks out of the pattern loop, so a review contributes one entry no
matter how many patterns match), the reported count equals the number
of matching reviews independently of the sample cap, at most 5 sample
excerpts are kept (exactly the first 5 entries), and excerpts are
truncated to 300 characters with an ellipsis marker exactly when the
content exceeds 300 characters. -/
theorem feature_request_extractor_spec (reviews : List Review) :
    feature_requests_count reviews =
      reviews.countP (fun r => firstPatternMatch (reviewText r) feature_patterns) ∧
    (feature_request_samples reviews).length ≤ 5 ∧
    feature_request_samples reviews = (feature_requests reviews).take 5 ∧
    (∀ e ∈ feature_requests reviews,
      ∃ r ∈ reviews, firstPatternMatch (reviewText r) feature_patterns = true ∧
        e.rating = r.rating ∧
        e.excerpt = (if 300 < r.content.length then
          String.mk (r.content.toList.take 300) ++ "..." else r.content)) := by
  refine ⟨?_, ?_, rfl, ?_⟩
  · unfold feature_requests_count
    induction reviews with
    | nil => rfl
    | cons r rest ih =>
        by_cases hm : firstPatternMatch (reviewText r) feature_patterns
        · show (feature_requests (r :: rest)).length = _
          rw [show feature_requests (r :: rest) =
              ⟨r.rating, excerptOf 300 r.content⟩ :: feature_requests rest from by
            rw [feature_requests, if_pos hm]]
          rw [List.length_cons, ih, List.countP_cons_of_pos _ rest hm]
        · show (feature_requests (r :: rest)).length = _
          rw [show feature_requests (r :: rest) = feature_requests rest from by
            rw [feature_requests, if_neg hm]]
          rw [ih, List.countP_cons_of_neg _ rest hm]
  · unfold feature_request_samples
    rw [List.length_take]
    omega
  · intro e he
    induction reviews with
    | nil => simp [feature_requests] at he
    | cons r rest ih =>
        by_cases hm : firstPatternMatch (reviewText r) feature_patterns
        · rw [show feature_requests (r :: rest) =
              ⟨r.rating, excerptOf 300 r.content⟩ :: feature_requests rest from by
            rw [feature_requests, if_pos hm]] at he
          rcases List.mem_cons.mp he with heq | he'
          · refine ⟨r, List.mem_cons_self .., hm, ?_, ?_⟩
            · rw [heq]
            · rw [heq]
              rfl
          · obtain ⟨r', hr', hrest⟩ := ih he'
            exact ⟨r', List.mem_cons_of_mem _ hr', hrest⟩
        · rw [show feature_requests (r :: rest) = feature_requests rest from by
            rw [feature_requests, if_neg hm]] at he
          obtain ⟨r', hr', hrest⟩ := ih he
          exact ⟨r', List.mem_cons_of_mem _ hr', hrest⟩

/-- Witness for C9 at a concrete "please add" review. -/
theorem feature_request_extractor_spec_witness :
    feature_requests_count [{ id := "1", rating := 3, content := "please add dark mode" }] =
      [{ id := "1", rating := 3, content := "please add dark mode" }].countP
        (fun r => firstPatternMatch (reviewText r) feature_patterns) ∧
    (feature_request_samples
        [{ id := "1", rating := 3, content := "please add dark mode" }]).length ≤ 5 := by
  have h := feature_request_extractor_spec
    [{ id := "1", rating := 3, content := "please add dark mode" }]
  exact ⟨h.1, h.2.1⟩
